import Mathlib

/-!
Shallow embedding of `xdg-desktop-list.go` (package main): a tool that scans
the `applications` subdirectory of each entry of an ordered list of base data
directories, parses `.desktop` files (first block only), deduplicates parsed
entries by logical name using the directory index, and sorts the survivors by
(directory index, name).

Strings are modelled as `List Char` (Go compares strings byte-wise; UTF-8
byte order coincides with code-point order, so lexicographic comparison on
code points is faithful). The filesystem is modelled as two partial maps
(directory listings and file contents); `none` models the error return of
`os.ReadDir` / `os.Open`. Goroutines and channels are modelled by arrival
order nondeterminism: the list of entries collected from the output channel
is some permutation of the deterministically parsed entries, and the
determinism theorems quantify over that permutation.
-/

namespace Xdg

/-- Strings, modelled as lists of characters. -/
abbrev Str := List Char

/-- Conversion from Lean string literals to the model's strings. -/
def str (s : String) : Str := s.toList

/-- Go constant `applicationsPath = "applications"`. -/
def applicationsPath : Str := str "applications"

/-- Go constant `desktopSuffix = ".desktop"`. -/
def desktopSuffix : Str := str ".desktop"

/-- Go `unicode.IsSpace`: Latin-1 white space plus the Unicode `White_Space`
code points above U+00FF. -/
def isSpaceGo (c : Char) : Bool :=
  let v := c.toNat
  v = 0x20 || (0x9 ≤ v && v ≤ 0xD) || v = 0x85 || v = 0xA0 ||
  v = 0x1680 || (0x2000 ≤ v && v ≤ 0x200A) || v = 0x2028 || v = 0x2029 ||
  v = 0x202F || v = 0x205F || v = 0x3000

/-- Go `strings.TrimSpace`: drop white space from both ends. -/
def trimSpace (s : Str) : Str :=
  ((s.dropWhile isSpaceGo).reverse.dropWhile isSpaceGo).reverse

/-- Go `strings.TrimSuffix suffix s`: remove one trailing copy of the suffix
when present. -/
def trimSuffix (suffix s : Str) : Str :=
  if suffix.isSuffixOf s then s.take (s.length - suffix.length) else s

/-- Go `strings.Contains s sub`. -/
def containsStr (s sub : Str) : Bool :=
  if sub.isPrefixOf s then true else
  match s with
  | [] => false
  | _ :: r => containsStr r sub

/-- Go `filepath.Base` (Unix, no volume names): empty path gives ".",
trailing slashes are stripped, then the last component is returned,
and an all-slash path gives "/". -/
def baseName (p : Str) : Str :=
  if p = [] then str "." else
  if p.reverse.dropWhile (· = '/') = [] then str "/" else
  ((p.reverse.dropWhile (· = '/')).takeWhile (· ≠ '/')).reverse

/-- Go `filepath.Join a b` for the cases the program exercises.
`filepath.Clean` normalisation (duplicate slashes, dot segments) is not
modelled; the program only joins listing-supplied component names. -/
def joinPath (a b : Str) : Str :=
  if a = [] then b else if b = [] then a else a ++ '/' :: b

/-- Go `strings.Cut(line, "=")`: the part after the first "=" (empty when
there is none), which is the only component `parse` keeps. -/
def cutAfterEq : Str → Str
  | [] => []
  | c :: r => if c = '=' then r else cutAfterEq r

/-- The ordered (pattern, replacement) pairs of `commandArgReplacer`:
`strings.NewReplacer("%f", "", ..., "@@u", "", "@@", "", "\t", " ")`. -/
def replacerPairs : List (Str × Str) :=
  [(str "%f", str ""), (str "%F", str ""), (str "%u", str ""), (str "%U", str ""),
   (str "%d", str ""), (str "%D", str ""), (str "%n", str ""), (str "%N", str ""),
   (str "%i", str ""), (str "%c", str ""), (str "%k", str ""), (str "%v", str ""),
   (str "%m", str ""), (str "@@u", str ""), (str "@@", str ""),
   (str "\t", str " ")]

/-- One step of Go `strings.Replacer.Replace`: at the current position, the
first pattern (in argument order) that is a non-empty prefix of the rest of
the string matches; the result is the number of characters consumed and the
replacement to emit. -/
def tryMatch (s : Str) : List (Str × Str) → Option (Nat × Str)
  | [] => none
  | (pat, rep) :: ps =>
    if pat ≠ [] ∧ pat.isPrefixOf s then some (pat.length, rep) else tryMatch s ps

/-- Go `strings.Replacer.Replace` for `commandArgReplacer`: a single left to
right pass without overlapping matches. The fuel argument (instantiated with
the string length, which bounds the number of steps since every step consumes
at least one character) makes the recursion structural. -/
def replaceAux : Nat → Str → Str
  | _, [] => []
  | 0, s => s
  | n + 1, c :: rest =>
    match tryMatch (c :: rest) replacerPairs with
    | some (k, rep) => rep ++ replaceAux n ((c :: rest).drop k)
    | none => c :: replaceAux n rest

/-- Go `commandArgReplacer.Replace`. -/
def commandArgReplace (s : Str) : Str := replaceAux s.length s

/-- Go `category` bit set, as its two independent flags
(`categoryUser`, `categoryFlatpak`). -/
structure Categ where
  user : Bool
  flatpak : Bool
deriving DecidableEq, Repr

/-- Go `type application struct`. -/
structure Application where
  dirIndex : Nat
  applicationFile : Str
  categ : Categ
  name : Str
  command : Str
deriving DecidableEq, Repr

/-- The prefixes recognised by the `switch` in `parse`. -/
def noDisplayTrue : Str := str "NoDisplay=true"

/-- Prefix for the terminal flag line. -/
def terminalTrue : Str := str "Terminal=true"

/-- Prefix for the application type line. -/
def typeApplication : Str := str "Type=Application"

/-- Prefix for the command line. -/
def execKey : Str := str "Exec="

/-- The scanning loop of `parse` (label `sc`): fold over the lines with the
accumulated `hasApplication` flag and raw `command`. `none` models the early
`return nil, nil` on `NoDisplay=true` / `Terminal=true`; `some (h, c)` the
state when the loop ends (end of input or first blank line, `break sc`). -/
def scanLines (h : Bool) (cmd : Str) : List Str → Option (Bool × Str)
  | [] => some (h, cmd)
  | line :: rest =>
    if noDisplayTrue.isPrefixOf line then none
    else if terminalTrue.isPrefixOf line then none
    else if typeApplication.isPrefixOf line then scanLines true cmd rest
    else if execKey.isPrefixOf line then scanLines h (cutAfterEq line) rest
    else if trimSpace line = [] then some (h, cmd)
    else scanLines h cmd rest

/-- Go `parse` after a successful `os.Open`, operating on the file's lines:
scan the first block, reject when the type flag is unset or the raw command
is empty, otherwise build the `application` record (normalised command,
suffix-stripped base name, path-heuristic category). -/
def parseLines (applicationFile : Str) (dirIndex : Nat) (lines : List Str) :
    Option Application :=
  match scanLines false [] lines with
  | none => none
  | some (hasApplication, command) =>
    if !hasApplication || command == [] then none
    else
      some
        { dirIndex := dirIndex
          applicationFile := applicationFile
          categ :=
            { user := (str "/home").isPrefixOf applicationFile
              flatpak := containsStr applicationFile (str "/flatpak") }
          name := trimSuffix desktopSuffix (baseName applicationFile)
          command := commandArgReplace command }

/-- One directory listing entry (`os.DirEntry`): its name and whether it is a
directory. -/
structure DirEnt where
  entName : Str
  entIsDir : Bool
deriving DecidableEq, Repr

/-- The filesystem the program runs against: `readDir` models `os.ReadDir`
(`none` is an error, which `find` skips), `readFile` models `os.Open` plus
reading all lines (`none` is an open error). -/
structure Fs where
  readDir : Str → Option (List DirEnt)
  readFile : Str → Option (List Str)

/-- Go `parse`: `os.Open` failure is the error return
(`"open application file: %w"`); otherwise the pure line scan decides. -/
def parseFile (fs : Fs) (applicationFile : Str) (dirIndex : Nat) :
    Except Str (Option Application) :=
  match fs.readFile applicationFile with
  | none => Except.error (str "open application file")
  | some lines => Except.ok (parseLines applicationFile dirIndex lines)

/-- The producer goroutine of `find`: for each data directory (with its
index), list `dir/applications`; on `os.ReadDir` error skip the directory;
keep non-directory entries whose name ends in `.desktop`, emitting
(directory index, joined path) in order. -/
def walk (fs : Fs) (xdgDataDirs : List Str) : List (Nat × Str) :=
  xdgDataDirs.enum.flatMap fun p =>
    let applicationDir := joinPath p.2 applicationsPath
    match fs.readDir applicationDir with
    | none => []
    | some ents =>
      ents.filterMap fun ent =>
        if ent.entIsDir || !(desktopSuffix.isSuffixOf ent.entName) then none
        else some (p.1, joinPath applicationDir ent.entName)

/-- The worker loop body applied to every (index, path) pair: a parse error
contributes nothing (`continue` after logging), a `nil` application
contributes nothing, otherwise the entry is forwarded. -/
def parsedEntries (fs : Fs) (pairs : List (Nat × Str)) : List Application :=
  pairs.filterMap fun p =>
    match parseFile fs p.2 p.1 with
    | Except.error _ => none
    | Except.ok o => o

/-- The `maxIndexes` map of `find`: for each name, the running maximum of
`dirIndex` over the collected entries, starting from the Go zero value 0. -/
def maxIndexFor (l : List Application) (name : Str) : Nat :=
  l.foldl (fun m a => if a.name = name then max m a.dirIndex else m) 0

/-- Lexicographic comparison on strings, `cmp.Compare(a, b) <= 0`. -/
def strLe : Str → Str → Bool
  | [], _ => true
  | _ :: _, [] => false
  | a :: as, b :: bs => if a < b then true else if b < a then false else strLe as bs

/-- The `slices.SortFunc` comparator of `find`:
`cmp.Or(cmp.Compare(a.dirIndex, b.dirIndex), cmp.Compare(a.name, b.name))`
is non-positive. -/
def appLe (a b : Application) : Bool :=
  if a.dirIndex < b.dirIndex then true
  else if b.dirIndex < a.dirIndex then false
  else strLe a.name b.name

/-- The collection stage of `find` on the entries read off the output
channel, in arrival order: build `maxIndexes`, delete every entry whose
`dirIndex` is below the maximum for its name (`slices.DeleteFunc`), then sort
by the comparator (`slices.SortFunc`). -/
def aggregate (l : List Application) : List Application :=
  (l.filter fun a => !(a.dirIndex < maxIndexFor l a.name)).mergeSort appLe

/-- Go `find`, with the canonical arrival order (the deterministic walk
order). The concurrency bound `numWorkers` only sizes the worker pool; the
nondeterministic arrival order is covered by the theorems quantifying over
permutations of `parsedEntries`. `find` always returns `nil` as its error. -/
def find (fs : Fs) (xdgDataDirs : List Str) (numWorkers : Nat) :
    Except Str (List Application) :=
  Except.ok (aggregate (parsedEntries fs (walk fs xdgDataDirs)))

/-- The first block of a file: the lines before the first blank line (a line
whose `strings.TrimSpace` is empty), which is all the scanning loop of
`parse` ever inspects. -/
def firstBlock (lines : List Str) : List Str :=
  lines.takeWhile fun l => !(trimSpace l == [])

/-! ### String helpers -/

lemma mem_of_isPrefixOf_cons {x : Char} {xs b : Str}
    (h : (x :: xs).isPrefixOf b = true) : x ∈ b := by
  obtain ⟨t, ht⟩ := List.isPrefixOf_iff_prefix.mp h
  rw [← ht]
  exact List.mem_append_left _ (List.mem_cons_self x xs)

lemma blank_all_space {b : Str} (hb : trimSpace b = []) :
    ∀ c ∈ b, isSpaceGo c = true := by
  intro c hc
  unfold trimSpace at hb
  rw [List.reverse_eq_nil_iff, List.dropWhile_eq_nil_iff] at hb
  have hdrop : ∀ x ∈ b.dropWhile isSpaceGo, isSpaceGo x := by
    intro x hx
    exact hb x (List.mem_reverse.mpr hx)
  rw [← List.takeWhile_append_dropWhile (p := isSpaceGo) (l := b)] at hc
  rcases List.mem_append.mp hc with h | h
  · exact List.mem_takeWhile_imp h
  · exact hdrop c h

lemma not_prefixOf_blank (pat : Str) {b : Str} (hb : trimSpace b = []) (x : Char)
    (hx : pat.head? = some x) (hsp : isSpaceGo x = false) :
    ¬(pat.isPrefixOf b = true) := by
  intro h
  cases pat with
  | nil => simp at hx
  | cons y ys =>
    have hxy : y = x := by simpa using hx
    subst hxy
    have := blank_all_space hb y (mem_of_isPrefixOf_cons h)
    rw [this] at hsp
    simp at hsp

lemma nonblank_of_prefixOf (pat : Str) {line : Str} (x : Char) (hx : pat.head? = some x)
    (hsp : isSpaceGo x = false) (h : pat.isPrefixOf line = true) :
    ¬(trimSpace line = []) :=
  fun hb => not_prefixOf_blank pat hb x hx hsp h

lemma firstBlock_cons_of_nonblank {line : Str} {rest : List Str}
    (h : ¬(trimSpace line = [])) :
    firstBlock (line :: rest) = line :: firstBlock rest := by
  simp only [firstBlock, List.takeWhile_cons]
  rw [if_pos]
  simp [h]

lemma firstBlock_cons_of_blank {line : Str} {rest : List Str}
    (h : trimSpace line = []) :
    firstBlock (line :: rest) = [] := by
  simp [firstBlock, List.takeWhile_cons, h]

/-! ### Scanning loop lemmas -/

lemma scanLines_append_blank {b : Str} (hb : trimSpace b = []) (post : List Str) :
    ∀ (lines : List Str) (h : Bool) (c : Str),
      scanLines h c (lines ++ b :: post) = scanLines h c lines := by
  intro lines
  induction lines with
  | nil =>
    intro h c
    simp only [List.nil_append, scanLines]
    rw [if_neg (not_prefixOf_blank noDisplayTrue hb 'N' rfl (by decide)),
      if_neg (not_prefixOf_blank terminalTrue hb 'T' rfl (by decide)),
      if_neg (not_prefixOf_blank typeApplication hb 'T' rfl (by decide)),
      if_neg (not_prefixOf_blank execKey hb 'E' rfl (by decide)),
      if_pos hb]
  | cons line rest ih =>
    intro h c
    simp only [List.cons_append, scanLines]
    split_ifs <;> first | rfl | apply ih

lemma scanLines_none_of_skip_signal :
    ∀ (lines : List Str) (h : Bool) (c : Str),
      (∃ l ∈ firstBlock lines,
        noDisplayTrue.isPrefixOf l = true ∨ terminalTrue.isPrefixOf l = true) →
      scanLines h c lines = none := by
  intro lines
  induction lines with
  | nil =>
    intro h c hex
    obtain ⟨l, hl, _⟩ := hex
    simp [firstBlock] at hl
  | cons line rest ih =>
    intro h c hex
    simp only [scanLines]
    split_ifs with h1 h2 h3 h4 h5
    · rfl
    · rfl
    · apply ih
      obtain ⟨l, hl, hsig⟩ := hex
      rw [firstBlock_cons_of_nonblank (nonblank_of_prefixOf typeApplication 'T' rfl (by decide) h3)] at hl
      rcases List.mem_cons.mp hl with rfl | hl
      · rcases hsig with hs | hs
        · exact absurd hs h1
        · exact absurd hs h2
      · exact ⟨l, hl, hsig⟩
    · apply ih
      obtain ⟨l, hl, hsig⟩ := hex
      rw [firstBlock_cons_of_nonblank (nonblank_of_prefixOf execKey 'E' rfl (by decide) h4)] at hl
      rcases List.mem_cons.mp hl with rfl | hl
      · rcases hsig with hs | hs
        · exact absurd hs h1
        · exact absurd hs h2
      · exact ⟨l, hl, hsig⟩
    · obtain ⟨l, hl, _⟩ := hex
      rw [firstBlock_cons_of_blank h5] at hl
      simp at hl
    · apply ih
      obtain ⟨l, hl, hsig⟩ := hex
      rw [firstBlock_cons_of_nonblank h5] at hl
      rcases List.mem_cons.mp hl with rfl | hl
      · rcases hsig with hs | hs
        · exact absurd hs h1
        · exact absurd hs h2
      · exact ⟨l, hl, hsig⟩

lemma scanLines_no_type :
    ∀ (lines : List Str) (c : Str),
      (∀ l ∈ firstBlock lines, ¬(typeApplication.isPrefixOf l = true)) →
      scanLines false c lines = none ∨
        ∃ c', scanLines false c lines = some (false, c') := by
  intro lines
  induction lines with
  | nil => intro c _; exact Or.inr ⟨c, rfl⟩
  | cons line rest ih =>
    intro c hno
    simp only [scanLines]
    split_ifs with h1 h2 h3 h4 h5
    · exact Or.inl rfl
    · exact Or.inl rfl
    · exact absurd h3 (hno line (by
        rw [firstBlock_cons_of_nonblank (nonblank_of_prefixOf typeApplication 'T' rfl (by decide) h3)]
        exact List.mem_cons_self _ _))
    · apply ih
      intro l hl
      apply hno
      rw [firstBlock_cons_of_nonblank (nonblank_of_prefixOf execKey 'E' rfl (by decide) h4)]
      exact List.mem_cons_of_mem _ hl
    · exact Or.inr ⟨c, rfl⟩
    · apply ih
      intro l hl
      apply hno
      rw [firstBlock_cons_of_nonblank h5]
      exact List.mem_cons_of_mem _ hl

lemma scanLines_no_exec :
    ∀ (lines : List Str) (h : Bool) (c : Str),
      (∀ l ∈ firstBlock lines, ¬(execKey.isPrefixOf l = true)) →
      scanLines h c lines = none ∨
        ∃ h', scanLines h c lines = some (h', c) := by
  intro lines
  induction lines with
  | nil => intro h c _; exact Or.inr ⟨h, rfl⟩
  | cons line rest ih =>
    intro h c hno
    simp only [scanLines]
    split_ifs with h1 h2 h3 h4 h5
    · exact Or.inl rfl
    · exact Or.inl rfl
    · apply ih
      intro l hl
      apply hno
      rw [firstBlock_cons_of_nonblank (nonblank_of_prefixOf typeApplication 'T' rfl (by decide) h3)]
      exact List.mem_cons_of_mem _ hl
    · exact absurd h4 (hno line (by
        rw [firstBlock_cons_of_nonblank (nonblank_of_prefixOf execKey 'E' rfl (by decide) h4)]
        exact List.mem_cons_self _ _))
    · exact Or.inr ⟨h, rfl⟩
    · apply ih
      intro l hl
      apply hno
      rw [firstBlock_cons_of_nonblank h5]
      exact List.mem_cons_of_mem _ hl

lemma cutAfterEq_execKey (v : Str) : cutAfterEq (execKey ++ v) = v := by
  show cutAfterEq ('E' :: 'x' :: 'e' :: 'c' :: '=' :: v) = v
  simp only [cutAfterEq]
  rw [if_neg (by decide), if_neg (by decide), if_neg (by decide), if_neg (by decide)]
  simp

lemma isPrefixOf_cons_cons (x y : Char) (xs ys : Str) :
    ((x :: xs).isPrefixOf (y :: ys)) = (x == y && xs.isPrefixOf ys) := rfl

lemma not_isPrefixOf_execCons (pat : Str) (x : Char) (hx : pat.head? = some x)
    (hne : (x == 'E') = false) (v : Str) :
    ¬(pat.isPrefixOf (execKey ++ v) = true) := by
  cases pat with
  | nil => simp at hx
  | cons y ys =>
    have hxy : y = x := by simpa using hx
    subst hxy
    show ¬((y :: ys).isPrefixOf ('E' :: 'x' :: 'e' :: 'c' :: '=' :: v) = true)
    rw [isPrefixOf_cons_cons, hne, Bool.false_and]
    simp

lemma isPrefixOf_append (l t : Str) : l.isPrefixOf (l ++ t) = true :=
  List.isPrefixOf_iff_prefix.mpr ⟨t, rfl⟩

lemma bool_eq_false_of_not_true {x : Bool} (h : ¬(x = true)) : x = false := by
  cases x
  · rfl
  · exact absurd rfl h

lemma scanLines_last_exec (v : Str) :
    ∀ (pre : List Str) (h : Bool) (c : Str),
      (∀ l ∈ pre, ¬(noDisplayTrue.isPrefixOf l = true) ∧
        ¬(terminalTrue.isPrefixOf l = true) ∧ ¬(trimSpace l = [])) →
      scanLines h c (pre ++ [execKey ++ v]) =
        some (h || pre.any fun l => typeApplication.isPrefixOf l, v) := by
  intro pre
  induction pre with
  | nil =>
    intro h c _
    simp only [List.nil_append, scanLines]
    rw [if_neg (not_isPrefixOf_execCons noDisplayTrue 'N' rfl (by decide) v),
      if_neg (not_isPrefixOf_execCons terminalTrue 'T' rfl (by decide) v),
      if_neg (not_isPrefixOf_execCons typeApplication 'T' rfl (by decide) v),
      if_pos (isPrefixOf_append execKey v)]
    simp only [scanLines, cutAfterEq_execKey, List.any_nil, Bool.or_false]
  | cons line rest ih =>
    intro h c hstop
    obtain ⟨hnd, hterm, hnb⟩ := hstop line (List.mem_cons_self _ _)
    have hrest : ∀ l ∈ rest, ¬(noDisplayTrue.isPrefixOf l = true) ∧
        ¬(terminalTrue.isPrefixOf l = true) ∧ ¬(trimSpace l = []) :=
      fun l hl => hstop l (List.mem_cons_of_mem _ hl)
    simp only [List.cons_append, scanLines, List.append_eq]
    rw [if_neg hnd, if_neg hterm]
    by_cases h3 : typeApplication.isPrefixOf line = true
    · rw [if_pos h3, ih true c hrest]
      simp [List.any_cons, h3]
    · rw [if_neg h3]
      by_cases h4 : execKey.isPrefixOf line = true
      · rw [if_pos h4, ih h (cutAfterEq line) hrest]
        simp [List.any_cons, bool_eq_false_of_not_true h3]
      · rw [if_neg h4, if_neg hnb, ih h c hrest]
        simp [List.any_cons, bool_eq_false_of_not_true h3]

/-! ### Claim theorems: parser behaviour -/

/-- Sample content for the C3 witness: a skip signal surrounded by
`Type=Application` and `Exec=` lines. -/
def c3Lines : List Str := [str "Type=Application", str "NoDisplay=true", str "Exec=vim"]

/-- Sample filesystem for the C3 witness. -/
def c3Fs : Fs := ⟨fun _ => none, fun _ => some c3Lines⟩

/-- C3: a file whose first block (the lines before the first blank line)
contains a line beginning `NoDisplay=true` or a line beginning
`Terminal=true` parses to "not displayable": no entry and no error,
regardless of any other content of the file. -/
theorem c3_skip_signals (fs : Fs) (p : Str) (i : Nat) (lines : List Str)
    (hfile : fs.readFile p = some lines)
    (hsig : ∃ l ∈ firstBlock lines,
      noDisplayTrue.isPrefixOf l = true ∨ terminalTrue.isPrefixOf l = true) :
    parseLines p i lines = none ∧ parseFile fs p i = Except.ok none := by
  have hscan := scanLines_none_of_skip_signal lines false [] hsig
  have hnone : parseLines p i lines = none := by
    simp [parseLines, hscan]
  exact ⟨hnone, by simp [parseFile, hfile, hnone]⟩

/-- Witness for C3 at a concrete file. -/
theorem c3_skip_signals_witness :
    parseLines (str "/usr/share/applications/vim.desktop") 0 c3Lines = none ∧
    parseFile c3Fs (str "/usr/share/applications/vim.desktop") 0 = Except.ok none :=
  c3_skip_signals c3Fs (str "/usr/share/applications/vim.desktop") 0 c3Lines rfl (by decide)

/-- C4: the parser never looks past the first blank line — for any prefix
`pre` of the line list, a blank line and everything after it leave the result
exactly that of `pre` alone (so an `Exec=` line in a later block never
overrides the first block) — while within the first block a final `Exec=`
line overwrites whatever command earlier lines accumulated. -/
theorem c4_first_block_only (p : Str) (i : Nat) (pre post : List Str) (b : Str)
    (hb : trimSpace b = [])
    (pre2 : List Str) (v : Str)
    (hpre2 : ∀ l ∈ pre2, ¬(noDisplayTrue.isPrefixOf l = true) ∧
      ¬(terminalTrue.isPrefixOf l = true) ∧ ¬(trimSpace l = [])) :
    parseLines p i (pre ++ b :: post) = parseLines p i pre ∧
    scanLines false [] (pre2 ++ [execKey ++ v]) =
      some (pre2.any fun l => typeApplication.isPrefixOf l, v) := by
  constructor
  · unfold parseLines
    rw [scanLines_append_blank hb post pre false []]
  · have h := scanLines_last_exec v pre2 false [] hpre2
    simpa using h

/-- Witness for C4: a second block's `Exec=emacs` does not override the first
block, and a trailing `Exec=` in the first block overwrites an earlier one. -/
theorem c4_first_block_only_witness :
    parseLines (str "/usr/share/applications/a.desktop") 0
        ([str "Type=Application", str "Exec=vi"] ++ str "" :: [str "Exec=emacs"]) =
      parseLines (str "/usr/share/applications/a.desktop") 0
        [str "Type=Application", str "Exec=vi"] ∧
    scanLines false [] ([str "Exec=vi", str "Type=Application"] ++ [execKey ++ str "gvim"]) =
      some (([str "Exec=vi", str "Type=Application"]).any
        fun l => typeApplication.isPrefixOf l, str "gvim") :=
  c4_first_block_only (str "/usr/share/applications/a.desktop") 0
    [str "Type=Application", str "Exec=vi"] [str "Exec=emacs"] (str "") (by decide)
    [str "Exec=vi", str "Type=Application"] (str "gvim") (by decide)

/-- Sample content for the C5 witness: no `Type=Application` line. -/
def c5Lines : List Str := [str "Name=Foo", str "Exec=foo"]

/-- Sample filesystem for the C5 witness. -/
def c5Fs : Fs := ⟨fun _ => none, fun _ => some c5Lines⟩

/-- C5: a file whose first block has no `Type=Application` line, or no
`Exec=` line (so the raw command stays empty), parses to "not displayable":
no entry is produced and no error is reported. -/
theorem c5_missing_type_or_exec (fs : Fs) (p : Str) (i : Nat) (lines : List Str)
    (hfile : fs.readFile p = some lines)
    (hmiss : (∀ l ∈ firstBlock lines, ¬(typeApplication.isPrefixOf l = true)) ∨
      (∀ l ∈ firstBlock lines, ¬(execKey.isPrefixOf l = true))) :
    parseLines p i lines = none ∧ parseFile fs p i = Except.ok none := by
  have hnone : parseLines p i lines = none := by
    rcases hmiss with hm | hm
    · rcases scanLines_no_type lines [] hm with hscan | ⟨c', hscan⟩
      · simp [parseLines, hscan]
      · simp [parseLines, hscan]
    · rcases scanLines_no_exec lines false [] hm with hscan | ⟨h', hscan⟩
      · simp [parseLines, hscan]
      · simp [parseLines, hscan]
  exact ⟨hnone, by simp [parseFile, hfile, hnone]⟩

/-- Witness for C5 at a concrete file missing `Type=Application`. -/
theorem c5_missing_type_or_exec_witness :
    parseLines (str "/usr/share/applications/foo.desktop") 0 c5Lines = none ∧
    parseFile c5Fs (str "/usr/share/applications/foo.desktop") 0 = Except.ok none :=
  c5_missing_type_or_exec c5Fs (str "/usr/share/applications/foo.desktop") 0 c5Lines rfl
    (Or.inl (by decide))

/-- C10: the emptiness check applies to the raw command, before
normalisation: with `Type=Application` set and `Exec=%u`, the raw command
"%u" is non-empty, so a displayable entry is produced whose normalised
`displayCommand` is the empty string. -/
theorem c10_empty_after_normalization :
    scanLines false [] [str "Type=Application", str "Exec=%u"] = some (true, str "%u") ∧
    parseLines (str "/usr/share/applications/app.desktop") 0
        [str "Type=Application", str "Exec=%u"] =
      some { dirIndex := 0
             applicationFile := str "/usr/share/applications/app.desktop"
             categ := { user := false, flatpak := false }
             name := str "app"
             command := [] } := by
  decide

/-! ### Replacer lemmas -/

lemma tryMatch_some {s : Str} {ps : List (Str × Str)} {k : Nat} {rep : Str}
    (h : tryMatch s ps = some (k, rep)) :
    ∃ pr ∈ ps, pr.1 ≠ [] ∧ pr.1.isPrefixOf s = true ∧ k = pr.1.length ∧ rep = pr.2 := by
  induction ps with
  | nil => simp [tryMatch] at h
  | cons q qs ih =>
    obtain ⟨pat, rp⟩ := q
    simp only [tryMatch] at h
    split_ifs at h with hc
    · simp only [Option.some.injEq, Prod.mk.injEq] at h
      exact ⟨(pat, rp), List.mem_cons_self _ _, hc.1, hc.2, h.1.symm, h.2.symm⟩
    · obtain ⟨pr, hmem, hrest⟩ := ih h
      exact ⟨pr, List.mem_cons_of_mem _ hmem, hrest⟩

lemma tryMatch_ne_none {s : Str} {ps : List (Str × Str)} (pr : Str × Str)
    (hmem : pr ∈ ps) (hne : pr.1 ≠ []) (hpre : pr.1.isPrefixOf s = true) :
    tryMatch s ps ≠ none := by
  induction ps with
  | nil => simp at hmem
  | cons q qs ih =>
    obtain ⟨pat, rp⟩ := q
    simp only [tryMatch]
    split_ifs with hc
    · simp
    · rcases List.mem_cons.mp hmem with hq | hq
      · rw [hq] at hne hpre
        exact absurd ⟨hne, hpre⟩ hc
      · exact ih hq

lemma replaceAux_id : ∀ (n : Nat) (s : Str),
    (∀ pr ∈ replacerPairs, ¬ pr.1 <:+: s) → replaceAux n s = s := by
  intro n
  induction n with
  | zero => intro s _; cases s <;> simp [replaceAux]
  | succ n ih =>
    intro s hTok
    cases s with
    | nil => simp [replaceAux]
    | cons c rest =>
      have hnone : tryMatch (c :: rest) replacerPairs = none := by
        cases htm : tryMatch (c :: rest) replacerPairs with
        | none => rfl
        | some kr =>
          obtain ⟨k, rep⟩ := kr
          obtain ⟨pr, hmem, _, hpre, _, _⟩ := tryMatch_some htm
          exact absurd (List.isPrefixOf_iff_prefix.mp hpre).isInfix (hTok pr hmem)
      simp only [replaceAux, hnone]
      rw [ih rest fun pr hmem hinf => hTok pr hmem (List.infix_cons hinf)]

lemma replacer_replacements : ∀ pr ∈ replacerPairs, pr.2 = [] ∨ pr.2 = [' '] := by
  decide

lemma replaceAux_no_tab : ∀ (n : Nat) (s : Str), s.length ≤ n →
    '\t' ∉ replaceAux n s := by
  intro n
  induction n with
  | zero =>
    intro s hn
    rw [List.eq_nil_of_length_eq_zero (Nat.le_zero.mp hn)]
    simp [replaceAux]
  | succ n ih =>
    intro s hn
    cases s with
    | nil => simp [replaceAux]
    | cons c rest =>
      cases htm : tryMatch (c :: rest) replacerPairs with
      | some kr =>
        obtain ⟨k, rep⟩ := kr
        obtain ⟨pr, hmem, hne, hpre, hk, hrep⟩ := tryMatch_some htm
        simp only [replaceAux, htm]
        intro hmem2
        rcases List.mem_append.mp hmem2 with hin | hin
        · rcases replacer_replacements pr hmem with h0 | h0 <;>
            rw [hrep, h0] at hin <;> simp at hin
        · have hk1 : 1 ≤ k := by
            rw [hk]
            exact Nat.succ_le_of_lt (List.length_pos.mpr hne)
          have hlen : ((c :: rest).drop k).length ≤ n := by
            rw [List.length_drop]
            simp only [List.length_cons] at hn ⊢
            omega
          exact ih _ hlen hin
      | none =>
        have hc : ¬(c = '\t') := by
          intro hc
          subst hc
          exact tryMatch_ne_none (str "\t", str " ") (by decide) (by decide)
            (by simp [List.isPrefixOf]) htm
        simp only [replaceAux, htm]
        intro hmem2
        rcases List.mem_cons.mp hmem2 with h0 | h0
        · exact hc h0.symm
        · refine ih rest ?_ h0
          simp only [List.length_cons] at hn
          omega

/-- C6: command normalisation removes the placeholder tokens and turns tabs
into single spaces and does nothing else: the worked example normalises as
the spec states, a command containing no placeholder token and no tab is
left unchanged, and no normalised command ever contains a tab. -/
theorem c6_normalization (s : Str)
    (hTok : ∀ pr ∈ replacerPairs, ¬ pr.1 <:+: s) :
    commandArgReplace (str "firefox %u %U --new-window") = str "firefox   --new-window" ∧
    commandArgReplace s = s ∧
    ∀ u : Str, '\t' ∉ commandArgReplace u :=
  ⟨by decide, replaceAux_id s.length s hTok,
    fun u => replaceAux_no_tab u.length u le_rfl⟩

/-- Witness for C6 at a concrete placeholder-free command. -/
theorem c6_normalization_witness :
    commandArgReplace (str "firefox %u %U --new-window") = str "firefox   --new-window" ∧
    commandArgReplace (str "mpv --fs") = str "mpv --fs" ∧
    ∀ u : Str, '\t' ∉ commandArgReplace u :=
  c6_normalization (str "mpv --fs") (by decide)

/-! ### Logical name lemmas -/

lemma dropWhile_head_false {p : Char → Bool} {l : Str} {x : Char} {t : Str}
    (h : l.dropWhile p = x :: t) : p x = false := by
  have hw := List.head?_dropWhile_not p l
  rw [h] at hw
  simpa using hw

lemma baseName_ne_nil (p : Str) : baseName p ≠ [] := by
  unfold baseName
  split_ifs with h1 h2
  · decide
  · decide
  · cases hd : p.reverse.dropWhile (· = '/') with
    | nil => exact absurd hd h2
    | cons x t =>
      have hx : x ≠ '/' := by simpa using dropWhile_head_false hd
      rw [List.takeWhile_cons, if_pos (by simpa using hx)]
      simp

lemma name_empty_iff (p : Str) :
    trimSuffix desktopSuffix (baseName p) = [] ↔ baseName p = desktopSuffix := by
  unfold trimSuffix
  split_ifs with hs
  · rw [List.take_eq_nil_iff]
    constructor
    · rintro (h0 | h0)
      · have hsuf := List.isSuffixOf_iff_suffix.mp hs
        have hlen := hsuf.length_le
        have hlen2 : (baseName p).length = desktopSuffix.length := by omega
        exact (hsuf.eq_of_length hlen2.symm).symm
      · exact absurd h0 (baseName_ne_nil p)
    · intro h0
      rw [h0]
      exact Or.inl (Nat.sub_self _)
  · constructor
    · intro h0
      exact absurd h0 (baseName_ne_nil p)
    · intro h0
      exfalso
      apply hs
      rw [h0]
      exact List.isSuffixOf_iff_suffix.mpr (List.suffix_refl _)

/-- Filesystem for the C7 counterexample: one base directory whose
`applications` subdirectory contains a file named exactly ".desktop". -/
def c7Fs : Fs :=
  ⟨fun d => if d = str "/usr/share/applications"
      then some [⟨str ".desktop", false⟩] else none,
    fun f => if f = str "/usr/share/applications/.desktop"
      then some [str "Type=Application", str "Exec=x"] else none⟩

/-- C7 counterexample: a candidate file named exactly ".desktop" parses to an
entry whose logical name is empty — it is not rejected during parsing, and it
reaches the deduplication stage. -/
theorem c7_counterexample :
    parseLines (str "/usr/share/applications/.desktop") 0
        [str "Type=Application", str "Exec=x"] =
      some { dirIndex := 0
             applicationFile := str "/usr/share/applications/.desktop"
             categ := { user := false, flatpak := false }
             name := []
             command := str "x" } ∧
    parsedEntries c7Fs (walk c7Fs [str "/usr/share"]) =
      [{ dirIndex := 0
         applicationFile := str "/usr/share/applications/.desktop"
         categ := { user := false, flatpak := false }
         name := []
         command := str "x" }] := by
  decide

/-- C7 amended: every produced entry's logical name is the file's base name
with the ".desktop" suffix stripped; it is empty exactly when the base name
is literally ".desktop" — parsing performs no emptiness rejection. -/
theorem c7_amended_name (p : Str) (i : Nat) (lines : List Str) (e : Application)
    (h : parseLines p i lines = some e) :
    e.name = trimSuffix desktopSuffix (baseName p) ∧
    (e.name = [] ↔ baseName p = desktopSuffix) := by
  have hname : e.name = trimSuffix desktopSuffix (baseName p) := by
    cases hscan : scanLines false [] lines with
    | none => simp [parseLines, hscan] at h
    | some pr =>
      obtain ⟨hA, c⟩ := pr
      simp only [parseLines, hscan] at h
      split_ifs at h with hcond
      simp only [Option.some.injEq] at h
      subst h
      rfl
  refine ⟨hname, ?_⟩
  rw [hname]
  exact name_empty_iff p

/-- Witness for C7's amended statement at a concrete parse. -/
theorem c7_amended_name_witness :
    (({ dirIndex := 0
        applicationFile := str "/usr/share/applications/app.desktop"
        categ := { user := false, flatpak := false }
        name := str "app"
        command := [] : Application }).name =
      trimSuffix desktopSuffix (baseName (str "/usr/share/applications/app.desktop"))) ∧
    (({ dirIndex := 0
        applicationFile := str "/usr/share/applications/app.desktop"
        categ := { user := false, flatpak := false }
        name := str "app"
        command := [] : Application }).name = [] ↔
      baseName (str "/usr/share/applications/app.desktop") = desktopSuffix) :=
  c7_amended_name (str "/usr/share/applications/app.desktop") 0
    [str "Type=Application", str "Exec=%u"] _ (by decide)

/-! ### Deduplication and ordering lemmas -/

unseal List.mergeSort List.merge

lemma foldl_bumpMax_seed (nm : Str) :
    ∀ (l : List Application) (init : Nat),
      l.foldl (fun m a => if a.name = nm then max m a.dirIndex else m) init =
        max init (l.foldl (fun m a => if a.name = nm then max m a.dirIndex else m) 0) := by
  intro l
  induction l with
  | nil => intro init; simp
  | cons a t ih =>
    intro init
    rw [List.foldl_cons, List.foldl_cons, ih ((fun m a => if a.name = nm then max m a.dirIndex else m) init a),
      ih ((fun m a => if a.name = nm then max m a.dirIndex else m) 0 a)]
    by_cases hn : a.name = nm <;> simp [hn, Nat.zero_max, Nat.max_assoc]

lemma maxIndexFor_cons (a : Application) (t : List Application) (nm : Str) :
    maxIndexFor (a :: t) nm =
      if a.name = nm then max a.dirIndex (maxIndexFor t nm) else maxIndexFor t nm := by
  unfold maxIndexFor
  rw [List.foldl_cons, foldl_bumpMax_seed]
  by_cases hn : a.name = nm <;> simp [hn, Nat.zero_max]

lemma le_maxIndexFor_of_mem : ∀ {l : List Application} {a : Application}, a ∈ l →
    a.dirIndex ≤ maxIndexFor l a.name := by
  intro l
  induction l with
  | nil => intro a ha; simp at ha
  | cons b t ih =>
    intro a ha
    rw [maxIndexFor_cons]
    rcases List.mem_cons.mp ha with rfl | ha'
    · rw [if_pos rfl]
      exact Nat.le_max_left _ _
    · by_cases hn : b.name = a.name
      · rw [if_pos hn]
        exact le_trans (ih ha') (Nat.le_max_right _ _)
      · rw [if_neg hn]
        exact ih ha'

lemma maxIndexFor_eq_zero {l : List Application} {nm : Str}
    (h : ∀ a ∈ l, a.name ≠ nm) : maxIndexFor l nm = 0 := by
  induction l with
  | nil => rfl
  | cons a t ih =>
    rw [maxIndexFor_cons, if_neg (h a (List.mem_cons_self _ _))]
    exact ih fun b hb => h b (List.mem_cons_of_mem _ hb)

lemma maxIndexFor_attained : ∀ {l : List Application} {nm : Str},
    nm ∈ l.map Application.name →
    ∃ a ∈ l, a.name = nm ∧ a.dirIndex = maxIndexFor l nm := by
  intro l
  induction l with
  | nil => intro nm h; simp at h
  | cons x t ih =>
    intro nm hmem
    rw [List.map_cons, List.mem_cons] at hmem
    rw [maxIndexFor_cons]
    by_cases hx : x.name = nm
    · rw [if_pos hx]
      by_cases hmem2 : nm ∈ t.map Application.name
      · obtain ⟨a, hat, han, had⟩ := ih hmem2
        by_cases hle : maxIndexFor t nm ≤ x.dirIndex
        · exact ⟨x, List.mem_cons_self _ _, hx, (Nat.max_eq_left hle).symm⟩
        · refine ⟨a, List.mem_cons_of_mem _ hat, han, ?_⟩
          rw [had, Nat.max_eq_right (le_of_not_le hle)]
      · have h0 : maxIndexFor t nm = 0 :=
          maxIndexFor_eq_zero fun b hb hbn => hmem2 (List.mem_map.mpr ⟨b, hb, hbn⟩)
        rw [h0]
        exact ⟨x, List.mem_cons_self _ _, hx, (Nat.max_eq_left (Nat.zero_le _)).symm⟩
    · rw [if_neg hx]
      rcases hmem with h | h
      · exact absurd h.symm hx
      · obtain ⟨a, hat, han, had⟩ := ih h
        exact ⟨a, List.mem_cons_of_mem _ hat, han, had⟩

lemma maxIndexFor_perm {l₁ l₂ : List Application} (hp : l₁.Perm l₂) (nm : Str) :
    maxIndexFor l₁ nm = maxIndexFor l₂ nm := by
  induction hp with
  | nil => rfl
  | cons x _ ih => rw [maxIndexFor_cons, maxIndexFor_cons, ih]
  | swap x y l =>
    rw [maxIndexFor_cons, maxIndexFor_cons, maxIndexFor_cons, maxIndexFor_cons]
    by_cases hx : x.name = nm <;> by_cases hy : y.name = nm <;>
      simp [hx, hy, max_left_comm]
  | trans _ _ ih1 ih2 => rw [ih1, ih2]

/-! ### Comparator lemmas -/

lemma strLe_total : ∀ s t : Str, strLe s t = true ∨ strLe t s = true := by
  intro s
  induction s with
  | nil => intro t; exact Or.inl rfl
  | cons a as ih =>
    intro t
    cases t with
    | nil => exact Or.inr rfl
    | cons b bs =>
      rcases lt_trichotomy a b with h | h | h
      · left; simp [strLe, h]
      · subst h
        rcases ih bs with h2 | h2
        · left; simp [strLe, lt_irrefl, h2]
        · right; simp [strLe, lt_irrefl, h2]
      · right; simp [strLe, h]

lemma strLe_trans : ∀ {s t u : Str}, strLe s t = true → strLe t u = true → strLe s u = true := by
  intro s
  induction s with
  | nil => intro t u _ _; rfl
  | cons a as ih =>
    intro t u h1 h2
    cases t with
    | nil => simp [strLe] at h1
    | cons b bs =>
      cases u with
      | nil => simp [strLe] at h2
      | cons c cs =>
        rcases lt_trichotomy a b with hab | hab | hab
        · rcases lt_trichotomy b c with hbc | hbc | hbc
          · simp [strLe, lt_trans hab hbc]
          · subst hbc
            simp [strLe, hab]
          · simp [strLe, hbc, lt_asymm hbc] at h2
        · subst hab
          rcases lt_trichotomy a c with hac | hac | hac
          · simp [strLe, hac]
          · subst hac
            simp only [strLe, lt_irrefl, if_false] at h1 h2 ⊢
            exact ih h1 h2
          · simp [strLe, hac, lt_asymm hac] at h2
        · simp [strLe, hab, lt_asymm hab] at h1

lemma strLe_antisymm : ∀ {s t : Str}, strLe s t = true → strLe t s = true → s = t := by
  intro s
  induction s with
  | nil =>
    intro t _ h2
    cases t with
    | nil => rfl
    | cons b bs => simp [strLe] at h2
  | cons a as ih =>
    intro t h1 h2
    cases t with
    | nil => simp [strLe] at h1
    | cons b bs =>
      rcases lt_trichotomy a b with hab | hab | hab
      · simp [strLe, hab, lt_asymm hab] at h2
      · subst hab
        simp only [strLe, lt_irrefl, if_false] at h1 h2
        rw [ih h1 h2]
      · simp [strLe, hab, lt_asymm hab] at h1

lemma appLe_total : ∀ a b : Application, (appLe a b || appLe b a) = true := by
  intro a b
  unfold appLe
  rcases Nat.lt_trichotomy a.dirIndex b.dirIndex with h | h | h
  · simp [h]
  · rcases strLe_total a.name b.name with h2 | h2 <;> simp [h, lt_irrefl, h2]
  · simp [h, Nat.lt_asymm h]

lemma appLe_trans : ∀ a b c : Application,
    appLe a b = true → appLe b c = true → appLe a c = true := by
  intro a b c h1 h2
  unfold appLe at h1 h2 ⊢
  rcases Nat.lt_trichotomy a.dirIndex b.dirIndex with hab | hab | hab <;>
    rcases Nat.lt_trichotomy b.dirIndex c.dirIndex with hbc | hbc | hbc
  · simp [Nat.lt_trans hab hbc]
  · simp [hbc ▸ hab]
  · simp [hbc, Nat.lt_asymm hbc] at h2
  · simp [hab ▸ hbc]
  · simp only [hab, hbc, lt_irrefl, if_false] at h1 h2 ⊢
    exact strLe_trans h1 h2
  · simp [hbc, Nat.lt_asymm hbc] at h2
  · simp [hab, Nat.lt_asymm hab] at h1
  · simp [hab, Nat.lt_asymm hab] at h1
  · simp [hab, Nat.lt_asymm hab] at h1

lemma appLe_keys {a b : Application} (h1 : appLe a b = true) (h2 : appLe b a = true) :
    a.dirIndex = b.dirIndex ∧ a.name = b.name := by
  unfold appLe at h1 h2
  rcases Nat.lt_trichotomy a.dirIndex b.dirIndex with h | h | h
  · simp [h, Nat.lt_asymm h] at h2
  · refine ⟨h, ?_⟩
    have h1' : strLe a.name b.name = true := by
      simpa [h, lt_irrefl] using h1
    have h2' : strLe b.name a.name = true := by
      simpa [h, lt_irrefl] using h2
    exact strLe_antisymm h1' h2'
  · simp [h, Nat.lt_asymm h] at h1

lemma countP_le_one_of_pairwise {p : Application → Bool} :
    ∀ {l : List Application}, (l.Pairwise fun a b => ¬(p a = true ∧ p b = true)) →
      l.countP p ≤ 1 := by
  intro l
  induction l with
  | nil => intro _; simp
  | cons a t ih =>
    intro h
    rcases List.pairwise_cons.mp h with ⟨hhead, htail⟩
    rw [List.countP_cons]
    by_cases hp : p a = true
    · have h0 : t.countP p = 0 := List.countP_eq_zero.mpr fun b hb hpb => hhead b hb ⟨hp, hpb⟩
      simp [h0, hp]
    · simp only [hp, if_false]
      simpa using ih htail

lemma eq_of_perm_of_sorted_antisymm {α : Type} {le : α → α → Bool} :
    ∀ {l₁ l₂ : List α}, l₁.Perm l₂ →
      l₁.Pairwise (fun a b => le a b = true) → l₂.Pairwise (fun a b => le a b = true) →
      (∀ a ∈ l₁, ∀ b ∈ l₁, le a b = true → le b a = true → a = b) → l₁ = l₂ := by
  intro l₁
  induction l₁ with
  | nil =>
    intro l₂ hp _ _ _
    exact hp.nil_eq
  | cons a t₁ ih =>
    intro l₂ hp hs₁ hs₂ hA
    cases l₂ with
    | nil =>
      have := hp.length_eq
      simp at this
    | cons b t₂ =>
      have hab : a = b := by
        by_cases h : a = b
        · exact h
        · have hbt1 : b ∈ t₁ := by
            rcases List.mem_cons.mp (hp.symm.subset (List.mem_cons_self b t₂)) with h' | h'
            · exact absurd h'.symm h
            · exact h'
          have hat2 : a ∈ t₂ := by
            rcases List.mem_cons.mp (hp.subset (List.mem_cons_self a t₁)) with h' | h'
            · exact absurd h' h
            · exact h'
          have h1 : le a b = true := (List.pairwise_cons.mp hs₁).1 b hbt1
          have h2 : le b a = true := (List.pairwise_cons.mp hs₂).1 a hat2
          exact absurd (hA a (List.mem_cons_self _ _) b (List.mem_cons_of_mem _ hbt1) h1 h2) h
      subst hab
      have ht : t₁.Perm t₂ := hp.cons_inv
      rw [ih ht (List.pairwise_cons.mp hs₁).2 (List.pairwise_cons.mp hs₂).2
        fun x hx y hy => hA x (List.mem_cons_of_mem _ hx) y (List.mem_cons_of_mem _ hy)]

lemma aggregate_sorted (l : List Application) :
    (aggregate l).Pairwise fun a b => appLe a b = true := by
  unfold aggregate
  have h := @List.sorted_mergeSort Application appLe
    (fun a b c h1 h2 => appLe_trans a b c h1 h2)
    (fun a b => appLe_total a b)
    (l.filter fun a => !(a.dirIndex < maxIndexFor l a.name))
  simpa using h

lemma aggregate_perm_eq {l₁ l₂ : List Application} (hp : l₁.Perm l₂)
    (huniq : l₂.Pairwise fun a b => a.name = b.name → a.dirIndex ≠ b.dirIndex) :
    aggregate l₁ = aggregate l₂ := by
  have hpred : (fun a : Application => !(a.dirIndex < maxIndexFor l₁ a.name)) =
      (fun a : Application => !(a.dirIndex < maxIndexFor l₂ a.name)) := by
    funext a
    rw [maxIndexFor_perm hp]
  have hsp : (l₁.filter fun a : Application => !(a.dirIndex < maxIndexFor l₂ a.name)).Perm
      (l₂.filter fun a : Application => !(a.dirIndex < maxIndexFor l₂ a.name)) :=
    hp.filter _
  have hs₁ := aggregate_sorted l₁
  have hs₂ := aggregate_sorted l₂
  unfold aggregate at hs₁ hs₂ ⊢
  rw [hpred] at hs₁ ⊢
  apply eq_of_perm_of_sorted_antisymm ?_ hs₁ hs₂
  · intro x hx y hy hxy hyx
    obtain ⟨hd, hn⟩ := appLe_keys hxy hyx
    have hx2 : x ∈ l₂ := hp.subset
      (List.mem_filter.mp ((List.mergeSort_perm _ appLe).subset hx)).1
    have hy2 : y ∈ l₂ := hp.subset
      (List.mem_filter.mp ((List.mergeSort_perm _ appLe).subset hy)).1
    by_cases hxyeq : x = y
    · exact hxyeq
    · have hsymm : Symmetric fun a b : Application =>
          a.name = b.name → a.dirIndex ≠ b.dirIndex :=
        fun a b hr hname hd0 => hr hname.symm hd0.symm
      exact absurd hd (huniq.forall hsymm hx2 hy2 hxyeq hn)
  · exact ((List.mergeSort_perm _ appLe).trans hsp).trans
      (List.mergeSort_perm _ appLe).symm

/-! ### Claim theorems: deduplication, ordering, error isolation, determinism -/

/-- C1 counterexample: two entries named "foo" at ranks 0 and 1; the
deduplication stage keeps the rank 1 entry and discards the rank 0 one, so
the retained entry does not have the smallest source rank. -/
theorem c1_counterexample :
    aggregate
        [{ dirIndex := 0
           applicationFile := str "/usr/share/applications/foo.desktop"
           categ := { user := false, flatpak := false }
           name := str "foo"
           command := str "foo" },
         { dirIndex := 1
           applicationFile := str "/usr/local/share/applications/foo.desktop"
           categ := { user := false, flatpak := false }
           name := str "foo"
           command := str "foo" }] =
      [{ dirIndex := 1
         applicationFile := str "/usr/local/share/applications/foo.desktop"
         categ := { user := false, flatpak := false }
         name := str "foo"
         command := str "foo" }] := by
  decide

/-- C1 amended: after deduplication each distinct logical name appears
exactly once (given that no two collected entries share both name and rank),
and the retained entry for each name is the one with the LARGEST source rank;
entries with a smaller rank for a name also seen at a larger rank are
discarded. -/
theorem c1_dedup_keeps_largest_rank (l : List Application)
    (huniq : l.Pairwise fun a b => a.name = b.name → a.dirIndex ≠ b.dirIndex) :
    (∀ a ∈ aggregate l, a.dirIndex = maxIndexFor l a.name) ∧
    (∀ nm ∈ l.map Application.name,
      ((aggregate l).countP fun a => a.name == nm) = 1) := by
  constructor
  · intro a ha
    have hmem : a ∈ l.filter fun x => !(x.dirIndex < maxIndexFor l x.name) :=
      ((List.mergeSort_perm _ appLe).mem_iff).mp ha
    obtain ⟨hal, hpred⟩ := List.mem_filter.mp hmem
    have h1 := le_maxIndexFor_of_mem hal
    have h2 : ¬(a.dirIndex < maxIndexFor l a.name) := by simpa using hpred
    omega
  · intro nm hnm
    rw [show aggregate l =
        (l.filter fun x => !(x.dirIndex < maxIndexFor l x.name)).mergeSort appLe from rfl,
      (List.mergeSort_perm _ appLe).countP_eq, List.countP_filter]
    apply Nat.le_antisymm
    · apply countP_le_one_of_pairwise
      refine List.Pairwise.imp_of_mem ?_ huniq
      intro a b ha hb hr hand
      obtain ⟨hpa, hpb⟩ := hand
      obtain ⟨hna, hda⟩ := Bool.and_eq_true_iff.mp hpa
      obtain ⟨hnb, hdb⟩ := Bool.and_eq_true_iff.mp hpb
      have hna' : a.name = nm := by simpa using hna
      have hnb' : b.name = nm := by simpa using hnb
      have hda' : a.dirIndex = maxIndexFor l nm := by
        have hle := le_maxIndexFor_of_mem ha
        rw [hna'] at hle
        have : ¬(a.dirIndex < maxIndexFor l a.name) := by simpa using hda
        rw [hna'] at this
        omega
      have hdb' : b.dirIndex = maxIndexFor l nm := by
        have hle := le_maxIndexFor_of_mem hb
        rw [hnb'] at hle
        have : ¬(b.dirIndex < maxIndexFor l b.name) := by simpa using hdb
        rw [hnb'] at this
        omega
      exact hr (hna'.trans hnb'.symm) (hda'.trans hdb'.symm)
    · obtain ⟨a, hal, hname, hd⟩ := maxIndexFor_attained hnm
      have hpos : 0 < l.countP fun x =>
          (x.name == nm) && !(x.dirIndex < maxIndexFor l x.name) := by
        rw [List.countP_pos_iff]
        refine ⟨a, hal, ?_⟩
        simp [hname, hd]
      omega

/-- Witness for C1's amended statement on the two "foo" entries. -/
theorem c1_dedup_keeps_largest_rank_witness :
    (∀ a ∈ aggregate
        [{ dirIndex := 0
           applicationFile := str "/usr/share/applications/foo.desktop"
           categ := { user := false, flatpak := false }
           name := str "foo"
           command := str "foo" },
         { dirIndex := 1
           applicationFile := str "/usr/local/share/applications/foo.desktop"
           categ := { user := false, flatpak := false }
           name := str "foo"
           command := str "foo" }],
      a.dirIndex = maxIndexFor
        [{ dirIndex := 0
           applicationFile := str "/usr/share/applications/foo.desktop"
           categ := { user := false, flatpak := false }
           name := str "foo"
           command := str "foo" },
         { dirIndex := 1
           applicationFile := str "/usr/local/share/applications/foo.desktop"
           categ := { user := false, flatpak := false }
           name := str "foo"
           command := str "foo" }] a.name) ∧
    (∀ nm ∈ ([{ dirIndex := 0
                applicationFile := str "/usr/share/applications/foo.desktop"
                categ := { user := false, flatpak := false }
                name := str "foo"
                command := str "foo" },
              { dirIndex := 1
                applicationFile := str "/usr/local/share/applications/foo.desktop"
                categ := { user := false, flatpak := false }
                name := str "foo"
                command := str "foo" }] : List Application).map Application.name,
      ((aggregate
        [{ dirIndex := 0
           applicationFile := str "/usr/share/applications/foo.desktop"
           categ := { user := false, flatpak := false }
           name := str "foo"
           command := str "foo" },
         { dirIndex := 1
           applicationFile := str "/usr/local/share/applications/foo.desktop"
           categ := { user := false, flatpak := false }
           name := str "foo"
           command := str "foo" }]).countP fun a => a.name == nm) = 1) :=
  c1_dedup_keeps_largest_rank _ (by decide)

/-- C2: the final sequence is sorted by ascending source rank and then by
name (case-sensitive lexicographic), and on surviving entries with ranks
[0,0,1] and names ["b","a","c"] the output order is
[(0,"a"),(0,"b"),(1,"c")]. -/
theorem c2_output_sorted (l : List Application) :
    (aggregate l).Pairwise (fun a b => appLe a b = true) ∧
    aggregate
        [{ dirIndex := 0, applicationFile := str "b", categ := { user := false, flatpak := false },
           name := str "b", command := str "x" },
         { dirIndex := 0, applicationFile := str "a", categ := { user := false, flatpak := false },
           name := str "a", command := str "x" },
         { dirIndex := 1, applicationFile := str "c", categ := { user := false, flatpak := false },
           name := str "c", command := str "x" }] =
      [{ dirIndex := 0, applicationFile := str "a", categ := { user := false, flatpak := false },
         name := str "a", command := str "x" },
       { dirIndex := 0, applicationFile := str "b", categ := { user := false, flatpak := false },
         name := str "b", command := str "x" },
       { dirIndex := 1, applicationFile := str "c", categ := { user := false, flatpak := false },
         name := str "c", command := str "x" }] :=
  ⟨aggregate_sorted l, by decide⟩

/-- C8: a file that cannot be opened yields a per-file parse error, the pair
for that file contributes zero entries while every other pair is still
processed, and `find` itself always returns with a `nil` error. -/
theorem c8_per_file_failure_isolated (fs : Fs) (badPath : Str) (i : Nat)
    (hbad : fs.readFile badPath = none)
    (pre post : List (Nat × Str)) (xdgDataDirs : List Str) (n : Nat) :
    parseFile fs badPath i = Except.error (str "open application file") ∧
    parsedEntries fs (pre ++ (i, badPath) :: post) =
      parsedEntries fs pre ++ parsedEntries fs post ∧
    find fs xdgDataDirs n =
      Except.ok (aggregate (parsedEntries fs (walk fs xdgDataDirs))) := by
  refine ⟨by simp [parseFile, hbad], ?_, rfl⟩
  simp [parsedEntries, List.filterMap_append, List.filterMap_cons, parseFile, hbad]

/-- Filesystem for the C8 witness: no file can be opened. -/
def c8Fs : Fs := ⟨fun _ => none, fun _ => none⟩

/-- Witness for C8 at a concrete unreadable file. -/
theorem c8_per_file_failure_isolated_witness :
    parseFile c8Fs (str "/usr/share/applications/a.desktop") 0 =
      Except.error (str "open application file") ∧
    parsedEntries c8Fs ([] ++ (0, str "/usr/share/applications/a.desktop") ::
        [(0, str "/usr/share/applications/b.desktop")]) =
      parsedEntries c8Fs [] ++
        parsedEntries c8Fs [(0, str "/usr/share/applications/b.desktop")] ∧
    find c8Fs [str "/usr/share"] 8 =
      Except.ok (aggregate (parsedEntries c8Fs (walk c8Fs [str "/usr/share"]))) :=
  c8_per_file_failure_isolated c8Fs (str "/usr/share/applications/a.desktop") 0 rfl
    [] [(0, str "/usr/share/applications/b.desktop")] [str "/usr/share"] 8

/-- C9: the post-sort output is a deterministic function of the directory
contents alone. Whatever order the worker pool delivers the parsed entries
in (any permutation of the deterministically parsed entry list), the final
result is the same, and `find` does not depend on the concurrency bound. -/
theorem c9_deterministic (fs : Fs) (xdgDataDirs : List Str)
    (arrival : List Application)
    (hperm : arrival.Perm (parsedEntries fs (walk fs xdgDataDirs)))
    (huniq : (parsedEntries fs (walk fs xdgDataDirs)).Pairwise
      fun a b => a.name = b.name → a.dirIndex ≠ b.dirIndex)
    (n₁ n₂ : Nat) :
    find fs xdgDataDirs n₁ = Except.ok (aggregate arrival) ∧
    find fs xdgDataDirs n₁ = find fs xdgDataDirs n₂ := by
  refine ⟨?_, rfl⟩
  unfold find
  rw [aggregate_perm_eq hperm huniq]

/-- Filesystem for the C9 witness: two base directories with one entry file
each. -/
def c9Fs : Fs :=
  ⟨fun d =>
      if d = str "/usr/share/applications" then some [⟨str "foo.desktop", false⟩]
      else if d = str "/opt/share/applications" then some [⟨str "bar.desktop", false⟩]
      else none,
    fun f =>
      if f = str "/usr/share/applications/foo.desktop"
        then some [str "Type=Application", str "Exec=foo"]
      else if f = str "/opt/share/applications/bar.desktop"
        then some [str "Type=Application", str "Exec=bar"]
      else none⟩

/-- Witness for C9: the two parsed entries delivered in reversed order, and
worker counts 1 and 8. -/
theorem c9_deterministic_witness :
    find c9Fs [str "/usr/share", str "/opt/share"] 1 =
      Except.ok (aggregate
        [{ dirIndex := 1
           applicationFile := str "/opt/share/applications/bar.desktop"
           categ := { user := false, flatpak := false }
           name := str "bar"
           command := str "bar" },
         { dirIndex := 0
           applicationFile := str "/usr/share/applications/foo.desktop"
           categ := { user := false, flatpak := false }
           name := str "foo"
           command := str "foo" }]) ∧
    find c9Fs [str "/usr/share", str "/opt/share"] 1 =
      find c9Fs [str "/usr/share", str "/opt/share"] 8 :=
  c9_deterministic c9Fs [str "/usr/share", str "/opt/share"]
    [{ dirIndex := 1
       applicationFile := str "/opt/share/applications/bar.desktop"
       categ := { user := false, flatpak := false }
       name := str "bar"
       command := str "bar" },
     { dirIndex := 0
       applicationFile := str "/usr/share/applications/foo.desktop"
       categ := { user := false, flatpak := false }
       name := str "foo"
       command := str "foo" }]
    (by decide) (by decide) 1 8

end Xdg

